import Mathlib

/-
  Verification of the image-encryptor core (src/main.py): key derivation,
  XOR transform, seeded permutation shuffle, and the encrypt/decrypt
  pipeline.  Buffers are modelled as flat lists of natural-number bytes:
  per the spec, image file I/O and reshaping are external collaborators
  and the core operates on the flattened byte sequence.
-/

namespace ImageEncryptor

/-- Modelled from the spec: `np.random.default_rng(seed)` is an external
dependency; the spec (section 4.2, section 9) only requires a deterministic
pseudorandom bit generator seeded by `seed`, consumed in a fixed
reproducible order.  This is the splitmix64 step: it returns the next
64-bit output together with the advanced state. -/
def nextRand (state : Nat) : Nat × Nat :=
  let s := (state + 11400714819323198485) % 18446744073709551616
  let z1 := ((s ^^^ (s >>> 30)) * 13787848793156543929) % 18446744073709551616
  let z2 := ((z1 ^^^ (z1 >>> 27)) * 10723151780598845931) % 18446744073709551616
  (z2 ^^^ (z2 >>> 31), s)

/-- Modelled from the spec: the Fisher-Yates-style selection loop of
section 4.2 (`rng.permutation(n)` in the source is external).  At each
step one random index below the remaining length is drawn, the element
there is emitted, and it is removed from the pool.  `fuel` bounds the
recursion by the initial pool length. -/
def fyPick : Nat → Nat → List Nat → List Nat
  | 0, _, _ => []
  | _ + 1, _, [] => []
  | fuel + 1, st, x :: xs =>
    let l := x :: xs
    let rs := nextRand st
    let j := rs.1 % l.length
    l.getD j 0 :: fyPick fuel rs.2 (l.eraseIdx j)

/-- `permutation_for_length` from src/main.py: a deterministic permutation
of `range n` generated from `seed` (the numpy generator itself is modelled
from the spec, see `fyPick`). -/
def permutation_for_length (n : Nat) (seed : Nat) : List Nat :=
  fyPick n seed (List.range n)

/-- Numpy scatter assignment `dst[positions] = values`: fold over the
position/value pairs, writing each value at its position. -/
def scatter (init : List Nat) (pairs : List (Nat × Nat)) : List Nat :=
  pairs.foldl (fun inv p => inv.set p.1 p.2) init

/-- Scatter assignment `inv[perm] = arange(n)` from `apply_shuffle` in
src/main.py: starting from an `empty_like` array (initial contents
irrelevant, modelled as zeros), write `i` into position `perm[i]` for
each `i`. -/
def invertPerm (perm : List Nat) : List Nat :=
  scatter (List.replicate perm.length 0) (perm.zip (List.range perm.length))

/-- Fancy indexing `flat[idx]` from src/main.py: gather the elements of
`arr` at the positions listed in `idx`. -/
def gather (arr : List Nat) (idx : List Nat) : List Nat :=
  idx.map fun i => arr.getD i 0

/-- `xor_transform` from src/main.py: `arr ^ np.uint8(key_byte)`.  The
cast to uint8 reduces the key modulo 256; array elements are bytes, so
the elementwise XOR needs no further reduction. -/
def xor_transform (arr : List Nat) (key_byte : Nat) : List Nat :=
  arr.map fun b => b ^^^ (key_byte % 256)

/-- `apply_shuffle` from src/main.py: shuffle (`encrypt = true`) gathers
through the seeded permutation; unshuffle (`encrypt = false`) gathers
through its scatter-built inverse. -/
def apply_shuffle (arr : List Nat) (seed : Nat) (encrypt : Bool) : List Nat :=
  let perm := permutation_for_length arr.length seed
  if encrypt then
    gather arr perm
  else
    gather arr (invertPerm perm)

/- ------------------ SHA-256 (key material) ------------------ -/

/-- Reduction modulo 2^32, the word size of SHA-256. -/
def w32 (x : Nat) : Nat := x % 4294967296

/-- Right rotation of a 32-bit word by `n` places. -/
def rotr32 (n : Nat) (x : Nat) : Nat :=
  w32 ((x >>> n) ||| (x <<< (32 - n)))

/-- SHA-256 small sigma 0: rotr 7 xor rotr 18 xor shift 3. -/
def smallSigma0 (x : Nat) : Nat :=
  (rotr32 7 x) ^^^ (rotr32 18 x) ^^^ (x >>> 3)

/-- SHA-256 small sigma 1: rotr 17 xor rotr 19 xor shift 10. -/
def smallSigma1 (x : Nat) : Nat :=
  (rotr32 17 x) ^^^ (rotr32 19 x) ^^^ (x >>> 10)

/-- SHA-256 big Sigma 0: rotr 2 xor rotr 13 xor rotr 22. -/
def bigSigma0 (x : Nat) : Nat :=
  (rotr32 2 x) ^^^ (rotr32 13 x) ^^^ (rotr32 22 x)

/-- SHA-256 big Sigma 1: rotr 6 xor rotr 11 xor rotr 25. -/
def bigSigma1 (x : Nat) : Nat :=
  (rotr32 6 x) ^^^ (rotr32 11 x) ^^^ (rotr32 25 x)

/-- SHA-256 choice function on 32-bit words. -/
def chFun (x y z : Nat) : Nat :=
  (x &&& y) ^^^ ((x ^^^ 4294967295) &&& z)

/-- SHA-256 majority function. -/
def majFun (x y z : Nat) : Nat :=
  (x &&& y) ^^^ (x &&& z) ^^^ (y &&& z)

/-- The eight 32-bit working variables of the SHA-256 compression. -/
structure Sha256State where
  a : Nat
  b : Nat
  c : Nat
  d : Nat
  e : Nat
  f : Nat
  g : Nat
  h : Nat

/-- Initial SHA-256 hash value (FIPS 180-4), in decimal. -/
def initH : Sha256State :=
  ⟨1779033703, 3144134277, 1013904242, 2773480762,
   1359893119, 2600822924, 528734635, 1541459225⟩

/-- The 64 SHA-256 round constants (FIPS 180-4), in decimal. -/
def K256 : List Nat :=
  [1116352408, 1899447441, 3049323471, 3921009573,
   961987163, 1508970993, 2453635748, 2870763221,
   3624381080, 310598401, 607225278, 1426881987,
   1925078388, 2162078206, 2614888103, 3248222580,
   3835390401, 4022224774, 264347078, 604807628,
   770255983, 1249150122, 1555081692, 1996064986,
   2554220882, 2821834349, 2952996808, 3210313671,
   3336571891, 3584528711, 113926993, 338241895,
   666307205, 773529912, 1294757372, 1396182291,
   1695183700, 1986661051, 2177026350, 2456956037,
   2730485921, 2820302411, 3259730800, 3345764771,
   3516065817, 3600352804, 4094571909, 275423344,
   430227734, 506948616, 659060556, 883997877,
   958139571, 1322822218, 1537002063, 1747873779,
   1955562222, 2024104815, 2227730452, 2361852424,
   2428436474, 2756734187, 3204031479, 3329325298]

/-- Extend a 16-word message schedule by `k` further words. -/
def extendSchedule : Nat → List Nat → List Nat
  | 0, ws => ws
  | k + 1, ws =>
    let t := ws.length
    let wt := w32 (smallSigma1 (ws.getD (t - 2) 0) + ws.getD (t - 7) 0 +
                   smallSigma0 (ws.getD (t - 15) 0) + ws.getD (t - 16) 0)
    extendSchedule k (ws ++ [wt])

/-- One SHA-256 compression round, consuming a pair of round constant
and schedule word. -/
def roundStep (st : Sha256State) (kw : Nat × Nat) : Sha256State :=
  let t1 := w32 (st.h + bigSigma1 st.e + chFun st.e st.f st.g + kw.1 + kw.2)
  let t2 := w32 (bigSigma0 st.a + majFun st.a st.b st.c)
  ⟨w32 (t1 + t2), st.a, st.b, st.c, w32 (st.d + t1), st.e, st.f, st.g⟩

/-- Compress one 16-word block into the running hash state. -/
def processBlock (H0 : Sha256State) (block : List Nat) : Sha256State :=
  let ws := extendSchedule 48 block
  let st := (K256.zip ws).foldl roundStep H0
  ⟨w32 (H0.a + st.a), w32 (H0.b + st.b), w32 (H0.c + st.c), w32 (H0.d + st.d),
   w32 (H0.e + st.e), w32 (H0.f + st.f), w32 (H0.g + st.g), w32 (H0.h + st.h)⟩

/-- Big-endian byte expansion of a value into exactly `k` bytes. -/
def toBytesBE : Nat → Nat → List Nat
  | 0, _ => []
  | k + 1, v => toBytesBE k (v / 256) ++ [v % 256]

/-- Big-endian value of a byte list (Python `int.from_bytes(l, "big")`). -/
def fromBytesBE : List Nat → Nat
  | [] => 0
  | b :: rest => b * 256 ^ rest.length + fromBytesBE rest

/-- SHA-256 padding: append 0x80, zero bytes up to 56 mod 64, then the
original bit length as 8 big-endian bytes. -/
def padMessage (msg : List Nat) : List Nat :=
  msg ++ [128] ++ List.replicate ((119 - msg.length % 64) % 64) 0 ++
    toBytesBE 8 (msg.length * 8)

/-- Group a byte list into big-endian 32-bit words. -/
def bytesToWords : List Nat → List Nat
  | b0 :: b1 :: b2 :: b3 :: rest =>
    (b0 * 16777216 + b1 * 65536 + b2 * 256 + b3) :: bytesToWords rest
  | _ => []

/-- Split a byte list into 64-byte chunks; `fuel` bounds the recursion. -/
def chunks64 : Nat → List Nat → List (List Nat)
  | 0, _ => []
  | fuel + 1, l =>
    if l.isEmpty then [] else l.take 64 :: chunks64 fuel (l.drop 64)

/-- Big-endian byte expansion of one 32-bit word of the digest. -/
def wordBytes (w : Nat) : List Nat :=
  [w / 16777216 % 256, w / 65536 % 256, w / 256 % 256, w % 256]

/-- Serialize the final hash state to the 32-byte digest. -/
def digestBytes (st : Sha256State) : List Nat :=
  wordBytes st.a ++ wordBytes st.b ++ wordBytes st.c ++ wordBytes st.d ++
  wordBytes st.e ++ wordBytes st.f ++ wordBytes st.g ++ wordBytes st.h

/-- Final SHA-256 hash state of a message: pad, split into blocks, and
fold the compression function from the initial state. -/
def shaStateOf (msg : List Nat) : Sha256State :=
  (chunks64 (padMessage msg).length (padMessage msg)).foldl
    (fun H blk => processBlock H (bytesToWords blk)) initH

/-- Modelled from the spec: `hashlib.sha256` is an external library; the
spec (section 4.1) requires a 256-bit cryptographic hash digest.  This is
SHA-256 per FIPS 180-4 on a byte list, returning the 32 digest bytes. -/
def sha256 (msg : List Nat) : List Nat :=
  digestBytes (shaStateOf msg)

/-- UTF-8 encoding of a Unicode code point (Python `str.encode("utf-8")`). -/
def utf8EncodeChar (c : Nat) : List Nat :=
  if c < 128 then [c]
  else if c < 2048 then [192 + c / 64, 128 + c % 64]
  else if c < 65536 then [224 + c / 4096, 128 + c / 64 % 64, 128 + c % 64]
  else [240 + c / 262144, 128 + c / 4096 % 64, 128 + c / 64 % 64, 128 + c % 64]

/-- UTF-8 byte sequence of a string. -/
def utf8Bytes (s : String) : List Nat :=
  (s.data.map fun c => utf8EncodeChar c.toNat).foldr (· ++ ·) []

/-- `derive_key_byte` from src/main.py: the first byte of the SHA-256
digest of the UTF-8 encoded password. -/
def derive_key_byte (password : String) : Nat :=
  (sha256 (utf8Bytes password)).getD 0 0

/-- `derive_seed` from src/main.py: the first 8 digest bytes read as a
64-bit unsigned big-endian integer. -/
def derive_seed (password : String) : Nat :=
  fromBytesBE ((sha256 (utf8Bytes password)).take 8)

/-- `process` from src/main.py restricted to its transform core: image
loading/saving are external collaborators per the spec, so the function
acts on the flattened byte buffer and returns it (or the `ValueError`
message) instead of doing file I/O.  Key material is derived first, the
mode and action strings are validated before any transform runs, and the
transforms are ordered by direction exactly as in lines 105-124. -/
def process (buf : List Nat) (password : String) (mode : String)
    (action : String) : Except String (List Nat) :=
  let key_byte := derive_key_byte password
  let seed := derive_seed password
  if ¬(mode = "xor" ∨ mode = "shuffle" ∨ mode = "both") then
    Except.error "mode must be one of: xor, shuffle, both"
  else if ¬(action = "encrypt" ∨ action = "decrypt") then
    Except.error "action must be 'encrypt' or 'decrypt'"
  else if action = "encrypt" then
    let a1 := if mode = "xor" ∨ mode = "both" then xor_transform buf key_byte else buf
    let a2 := if mode = "shuffle" ∨ mode = "both" then apply_shuffle a1 seed true else a1
    Except.ok a2
  else
    let a1 := if mode = "shuffle" ∨ mode = "both" then apply_shuffle buf seed false else buf
    let a2 := if mode = "xor" ∨ mode = "both" then xor_transform a1 key_byte else a1
    Except.ok a2

/- ------------------ Permutation lemmas ------------------ -/

theorem take_append_getElem_drop (l : List Nat) (i : Nat) (h : i < l.length) :
    l = l.take i ++ l.getD i 0 :: l.drop (i + 1) := by
  rw [List.getD_eq_getElem l 0 h]
  conv_lhs => rw [← List.take_append_drop i l]
  rw [List.drop_eq_getElem_cons h]

theorem getD_cons_eraseIdx_perm (l : List Nat) (j : Nat) (h : j < l.length) :
    (l.getD j 0 :: l.eraseIdx j).Perm l := by
  rw [List.eraseIdx_eq_take_drop_succ]
  conv_rhs => rw [take_append_getElem_drop l j h]
  exact List.perm_middle.symm

theorem fyPick_perm (fuel : Nat) :
    ∀ (st : Nat) (l : List Nat), l.length ≤ fuel → (fyPick fuel st l).Perm l := by
  induction fuel with
  | zero =>
    intro st l hl
    have : l = [] := List.eq_nil_of_length_eq_zero (Nat.le_zero.mp hl)
    simp [this, fyPick]
  | succ fuel ih =>
    intro st l hl
    match l with
    | [] => simp [fyPick]
    | x :: xs =>
      simp only [fyPick]
      have hlen : 0 < (x :: xs).length := by simp
      have hj : (nextRand st).1 % (x :: xs).length < (x :: xs).length :=
        Nat.mod_lt _ hlen
      have herase : ((x :: xs).eraseIdx ((nextRand st).1 % (x :: xs).length)).length ≤ fuel := by
        rw [List.length_eraseIdx_of_lt hj]
        simpa using Nat.le_of_succ_le_succ hl
      exact ((ih _ _ herase).cons _).trans (getD_cons_eraseIdx_perm _ _ hj)

theorem permutation_for_length_perm (n seed : Nat) :
    (permutation_for_length n seed).Perm (List.range n) :=
  fyPick_perm n seed (List.range n) (by simp)

theorem permutation_for_length_length (n seed : Nat) :
    (permutation_for_length n seed).length = n := by
  have := (permutation_for_length_perm n seed).length_eq
  simpa using this

theorem permutation_for_length_nodup (n seed : Nat) :
    (permutation_for_length n seed).Nodup :=
  (permutation_for_length_perm n seed).nodup_iff.mpr (List.nodup_range n)

theorem permutation_for_length_mem_lt (n seed : Nat) :
    ∀ x ∈ permutation_for_length n seed, x < n := by
  intro x hx
  have : x ∈ List.range n := (permutation_for_length_perm n seed).mem_iff.mp hx
  exact List.mem_range.mp this

/- ------------------ Scatter / inverse-permutation lemmas ------------------ -/

theorem getD_set_ne (l : List Nat) (q p v : Nat) (h : q ≠ p) :
    (l.set q v).getD p 0 = l.getD p 0 := by
  simp [List.getD_eq_getElem?_getD, List.getElem?_set_ne h]

theorem getD_set_self (l : List Nat) (p v : Nat) (h : p < l.length) :
    (l.set p v).getD p 0 = v := by
  have h' : p < (l.set p v).length := by simpa using h
  rw [List.getD_eq_getElem _ 0 h']
  exact List.getElem_set_self h'

theorem scatter_length (pairs : List (Nat × Nat)) :
    ∀ init : List Nat, (scatter init pairs).length = init.length := by
  induction pairs with
  | nil => intro init; rfl
  | cons p ps ih =>
    intro init
    show (scatter (init.set p.1 p.2) ps).length = init.length
    rw [ih]
    exact List.length_set init p.1 p.2

theorem getD_scatter_not_mem (pairs : List (Nat × Nat)) :
    ∀ (init : List Nat) (p : Nat), p ∉ pairs.map Prod.fst →
      (scatter init pairs).getD p 0 = init.getD p 0 := by
  induction pairs with
  | nil => intro init p _; rfl
  | cons q ps ih =>
    intro init p hp
    simp only [List.map_cons, List.mem_cons, not_or] at hp
    show (scatter (init.set q.1 q.2) ps).getD p 0 = init.getD p 0
    rw [ih _ p hp.2]
    exact getD_set_ne init q.1 p q.2 (fun hq => hp.1 hq.symm)

theorem getD_scatter_hit (l1 l2 : List (Nat × Nat)) (init : List Nat) (p v : Nat)
    (hnot : p ∉ l2.map Prod.fst) (hlt : p < init.length) :
    (scatter init (l1 ++ (p, v) :: l2)).getD p 0 = v := by
  have hsplit : scatter init (l1 ++ (p, v) :: l2) =
      scatter ((scatter init l1).set p v) l2 := by
    simp [scatter, List.foldl_append]
  rw [hsplit, getD_scatter_not_mem l2 _ p hnot]
  exact getD_set_self _ p v (by rw [scatter_length]; exact hlt)

theorem invertPerm_length (perm : List Nat) :
    (invertPerm perm).length = perm.length := by
  simp [invertPerm, scatter_length]

theorem invertPerm_getD_getD (perm : List Nat) (hnd : perm.Nodup)
    (hval : ∀ x ∈ perm, x < perm.length) (i : Nat) (hi : i < perm.length) :
    (invertPerm perm).getD (perm.getD i 0) 0 = i := by
  set n := perm.length with hn
  set pairs := perm.zip (List.range n) with hpairs
  have hplen : pairs.length = n := by simp [hpairs, hn]
  have hip : i < pairs.length := by rw [hplen]; exact hi
  have hfst : pairs.map Prod.fst = perm :=
    List.map_fst_zip perm (List.range n) (by simp [hn])
  have hgi : pairs.getD i (0, 0) = (perm.getD i 0, i) := by
    rw [List.getD_eq_getElem _ _ hip, List.getD_eq_getElem _ _ hi]
    show (perm.zip (List.range n)).get ⟨i, hip⟩ = _
    rw [List.get_eq_getElem, List.getElem_zip]
    simp
  have hsplit : pairs = pairs.take i ++ (perm.getD i 0, i) :: pairs.drop (i + 1) := by
    rw [← hgi]
    calc pairs = pairs.take i ++ pairs.drop i := (List.take_append_drop i pairs).symm
    _ = pairs.take i ++ pairs.getD i (0, 0) :: pairs.drop (i + 1) := by
        rw [List.getD_eq_getElem _ _ hip, List.drop_eq_getElem_cons hip]
  have hnotin : perm.getD i 0 ∉ (pairs.drop (i + 1)).map Prod.fst := by
    rw [List.map_drop, hfst]
    intro hmem
    have hpermsplit : perm = perm.take (i + 1) ++ perm.drop (i + 1) :=
      (List.take_append_drop (i + 1) perm).symm
    have hnd' : (perm.take (i + 1) ++ perm.drop (i + 1)).Nodup := by
      rw [← hpermsplit]; exact hnd
    have hdisj := (List.nodup_append.mp hnd').2.2
    have hmemtake : perm.getD i 0 ∈ perm.take (i + 1) := by
      rw [List.getD_eq_getElem _ _ hi]
      have hlt' : i < (perm.take (i + 1)).length := by
        simp [List.length_take]; omega
      have hgt : (perm.take (i + 1)).get ⟨i, hlt'⟩ = perm.get ⟨i, hi⟩ := List.getElem_take _
      rw [List.get_eq_getElem, List.get_eq_getElem] at hgt
      rw [← hgt]
      exact List.getElem_mem hlt'
    exact hdisj hmemtake hmem
  have hub : perm.getD i 0 < (List.replicate n (0 : Nat)).length := by
    rw [List.length_replicate]
    exact hval _ (by rw [List.getD_eq_getElem _ _ hi]; exact List.getElem_mem hi)
  show (scatter (List.replicate n 0) pairs).getD (perm.getD i 0) 0 = i
  rw [hsplit]
  exact getD_scatter_hit _ _ _ _ i hnotin hub

theorem permutation_getD_lt (n seed i : Nat) (hi : i < n) :
    (permutation_for_length n seed).getD i 0 < n := by
  have hi' : i < (permutation_for_length n seed).length := by
    rw [permutation_for_length_length]; exact hi
  rw [List.getD_eq_getElem _ _ hi']
  exact permutation_for_length_mem_lt n seed _ (List.getElem_mem hi')

theorem invertPerm_perm_getD (n seed i : Nat) (hi : i < n) :
    (invertPerm (permutation_for_length n seed)).getD
      ((permutation_for_length n seed).getD i 0) 0 = i := by
  apply invertPerm_getD_getD _ (permutation_for_length_nodup n seed)
  · intro x hx
    rw [permutation_for_length_length]
    exact permutation_for_length_mem_lt n seed x hx
  · rw [permutation_for_length_length]; exact hi

theorem permutation_surj (n seed j : Nat) (hj : j < n) :
    ∃ i, i < n ∧ (permutation_for_length n seed).getD i 0 = j := by
  have hmem : j ∈ permutation_for_length n seed :=
    (permutation_for_length_perm n seed).mem_iff.mpr (List.mem_range.mpr hj)
  obtain ⟨i, hi, hij⟩ := List.getElem_of_mem hmem
  refine ⟨i, ?_, ?_⟩
  · rw [← permutation_for_length_length n seed]; exact hi
  · rw [List.getD_eq_getElem _ _ hi]; exact hij

theorem invertPerm_getD_lt_and_getD (n seed j : Nat) (hj : j < n) :
    (invertPerm (permutation_for_length n seed)).getD j 0 < n ∧
    (permutation_for_length n seed).getD
      ((invertPerm (permutation_for_length n seed)).getD j 0) 0 = j := by
  obtain ⟨i, hi, hij⟩ := permutation_surj n seed j hj
  have : (invertPerm (permutation_for_length n seed)).getD j 0 = i := by
    rw [← hij]; exact invertPerm_perm_getD n seed i hi
  rw [this]
  exact ⟨hi, hij⟩

/- ------------------ Gather / shuffle lemmas ------------------ -/

theorem gather_length (arr idx : List Nat) : (gather arr idx).length = idx.length :=
  List.length_map idx _

theorem gather_getD (arr idx : List Nat) (i : Nat) (hi : i < idx.length) :
    (gather arr idx).getD i 0 = arr.getD (idx.getD i 0) 0 := by
  have hi' : i < (gather arr idx).length := by rw [gather_length]; exact hi
  rw [List.getD_eq_getElem _ _ hi', List.getD_eq_getElem idx _ hi]
  exact List.getElem_map _

theorem apply_shuffle_true_length (arr : List Nat) (seed : Nat) :
    (apply_shuffle arr seed true).length = arr.length := by
  show (gather arr (permutation_for_length arr.length seed)).length = arr.length
  rw [gather_length, permutation_for_length_length]

theorem apply_shuffle_false_length (arr : List Nat) (seed : Nat) :
    (apply_shuffle arr seed false).length = arr.length := by
  show (gather arr (invertPerm (permutation_for_length arr.length seed))).length = arr.length
  rw [gather_length, invertPerm_length, permutation_for_length_length]

theorem unshuffle_shuffle (arr : List Nat) (seed : Nat) :
    apply_shuffle (apply_shuffle arr seed true) seed false = arr := by
  have hlen1 : (apply_shuffle arr seed true).length = arr.length :=
    apply_shuffle_true_length arr seed
  have hlen : (apply_shuffle (apply_shuffle arr seed true) seed false).length = arr.length := by
    rw [apply_shuffle_false_length, hlen1]
  apply List.ext_getElem hlen
  intro i h1 h2
  have hi : i < arr.length := h2
  have hstep : apply_shuffle (apply_shuffle arr seed true) seed false =
      gather (gather arr (permutation_for_length arr.length seed))
        (invertPerm (permutation_for_length arr.length seed)) := by
    show gather _ (invertPerm (permutation_for_length (apply_shuffle arr seed true).length seed)) = _
    rw [hlen1]
    rfl
  have hinvlen : i < (invertPerm (permutation_for_length arr.length seed)).length := by
    rw [invertPerm_length, permutation_for_length_length]; exact hi
  obtain ⟨hlt, hrt⟩ := invertPerm_getD_lt_and_getD arr.length seed i hi
  have hgd : (apply_shuffle (apply_shuffle arr seed true) seed false).getD i 0 =
      arr.getD i 0 := by
    rw [hstep, gather_getD _ _ i hinvlen, gather_getD _ _ _
      (by rw [permutation_for_length_length]; exact hlt), hrt]
  rw [← List.getD_eq_getElem _ 0 h1, ← List.getD_eq_getElem arr 0 hi]
  exact hgd

/- ------------------ XOR lemmas ------------------ -/

theorem xor_transform_length (arr : List Nat) (k : Nat) :
    (xor_transform arr k).length = arr.length :=
  List.length_map arr _

theorem xor_transform_getD (arr : List Nat) (k i : Nat) (hi : i < arr.length) :
    (xor_transform arr k).getD i 0 = arr.getD i 0 ^^^ (k % 256) := by
  have hi' : i < (xor_transform arr k).length := by rw [xor_transform_length]; exact hi
  rw [List.getD_eq_getElem _ _ hi', List.getD_eq_getElem arr _ hi]
  exact List.getElem_map _

theorem xor_transform_involutive (arr : List Nat) (k : Nat) :
    xor_transform (xor_transform arr k) k = arr := by
  simp only [xor_transform, List.map_map]
  have hfun : ((fun b => b ^^^ k % 256) ∘ fun b => b ^^^ k % 256) = fun b : Nat => b := by
    funext b
    simp [Function.comp, Nat.xor_assoc]
  rw [hfun]
  exact List.map_id arr

/- ------------------ Digest lemmas ------------------ -/

theorem wordBytes_mem_lt (w : Nat) : ∀ x ∈ wordBytes w, x < 256 := by
  intro x hx
  simp only [wordBytes, List.mem_cons, List.not_mem_nil, or_false] at hx
  rcases hx with rfl | rfl | rfl | rfl <;> exact Nat.mod_lt _ (by norm_num)

theorem digestBytes_length (st : Sha256State) : (digestBytes st).length = 32 := by
  simp [digestBytes, wordBytes]

theorem digestBytes_mem_lt (st : Sha256State) : ∀ x ∈ digestBytes st, x < 256 := by
  intro x hx
  simp only [digestBytes, List.mem_append] at hx
  rcases hx with ((((((h | h) | h) | h) | h) | h) | h) | h <;>
    exact wordBytes_mem_lt _ x h

theorem digestBytes_getD_zero (st : Sha256State) :
    (digestBytes st).getD 0 0 = st.a / 16777216 % 256 := rfl

theorem digestBytes_take_eight (st : Sha256State) :
    (digestBytes st).take 8 = wordBytes st.a ++ wordBytes st.b := rfl

theorem fromBytesBE_lt (l : List Nat) (h : ∀ x ∈ l, x < 256) :
    fromBytesBE l < 256 ^ l.length := by
  induction l with
  | nil => simp [fromBytesBE]
  | cons b rest ih =>
    have hb : b < 256 := h b (List.mem_cons_self b rest)
    have hrest : fromBytesBE rest < 256 ^ rest.length :=
      ih fun x hx => h x (List.mem_cons_of_mem b hx)
    show b * 256 ^ rest.length + fromBytesBE rest < 256 ^ (rest.length + 1)
    calc b * 256 ^ rest.length + fromBytesBE rest
        < b * 256 ^ rest.length + 256 ^ rest.length := by omega
    _ = (b + 1) * 256 ^ rest.length := by ring
    _ ≤ 256 * 256 ^ rest.length := by
        exact Nat.mul_le_mul_right _ (by omega)
    _ = 256 ^ (rest.length + 1) := by ring

theorem fromBytesBE_cons_div (b : Nat) (rest : List Nat) (h : ∀ x ∈ rest, x < 256) :
    fromBytesBE (b :: rest) / 256 ^ rest.length = b := by
  show (b * 256 ^ rest.length + fromBytesBE rest) / 256 ^ rest.length = b
  rw [Nat.mul_comm, Nat.mul_add_div (Nat.pos_pow_of_pos _ (by norm_num)),
    Nat.div_eq_of_lt (fromBytesBE_lt rest h)]
  omega

theorem fromBytesBE_take8_digest_div (st : Sha256State) :
    fromBytesBE ((digestBytes st).take 8) / 2 ^ 56 = (digestBytes st).getD 0 0 := by
  rw [digestBytes_take_eight, digestBytes_getD_zero]
  have hshape : wordBytes st.a ++ wordBytes st.b =
      st.a / 16777216 % 256 ::
        [st.a / 65536 % 256, st.a / 256 % 256, st.a % 256, st.b / 16777216 % 256,
         st.b / 65536 % 256, st.b / 256 % 256, st.b % 256] := rfl
  rw [hshape]
  have hrest : ∀ x ∈ [st.a / 65536 % 256, st.a / 256 % 256, st.a % 256,
      st.b / 16777216 % 256, st.b / 65536 % 256, st.b / 256 % 256, st.b % 256], x < 256 := by
    intro x hx
    simp only [List.mem_cons, List.not_mem_nil, or_false] at hx
    rcases hx with rfl | rfl | rfl | rfl | rfl | rfl | rfl <;>
      exact Nat.mod_lt _ (by norm_num)
  have hdiv := fromBytesBE_cons_div (st.a / 16777216 % 256) _ hrest
  norm_num at hdiv
  norm_num
  exact hdiv

/- ------------------ Pipeline lemmas ------------------ -/

theorem process_both_encrypt_eq (buf : List Nat) (p : String) :
    process buf p "both" "encrypt" =
      Except.ok (apply_shuffle (xor_transform buf (derive_key_byte p))
        (derive_seed p) true) := by
  simp [process]

theorem process_both_decrypt_eq (buf : List Nat) (p : String) :
    process buf p "both" "decrypt" =
      Except.ok (xor_transform (apply_shuffle buf (derive_seed p) false)
        (derive_key_byte p)) := by
  simp [process]

theorem permutation_for_length_zero (s : Nat) : permutation_for_length 0 s = [] := rfl

theorem permutation_for_length_one (s : Nat) : permutation_for_length 1 s = [0] := by
  show fyPick 1 s [0] = [0]
  simp [fyPick, Nat.mod_one]

theorem permutation_for_length_count (n s v : Nat) (hv : v < n) :
    (permutation_for_length n s).count v = 1 := by
  rw [(permutation_for_length_perm n s).count_eq]
  exact List.count_eq_one_of_mem (List.nodup_range n) (List.mem_range.mpr hv)

/- ------------------ Claim theorems ------------------ -/

/-- Claim C1: full-pipeline round-trip.  For every byte buffer `b` and
password `p`, running the pipeline with transform set `both` in direction
`encrypt` (XOR with the derived key byte, then forward shuffle with the
derived seed) and then with `both` in direction `decrypt` (inverse
shuffle, then XOR) returns exactly `b`. -/
theorem pipeline_both_roundtrip (b : List Nat) (p : String) :
    ∃ enc, process b p "both" "encrypt" = Except.ok enc ∧
      process enc p "both" "decrypt" = Except.ok b := by
  refine ⟨_, process_both_encrypt_eq b p, ?_⟩
  rw [process_both_decrypt_eq, unshuffle_shuffle, xor_transform_involutive]

/-- Claim C2: shuffle round-trip.  For every buffer `b` and seed `s`,
unshuffling (`apply_shuffle` with `encrypt = false`) the result of
shuffling `b` (`apply_shuffle` with `encrypt = true`) with the same seed
yields exactly `b`. -/
theorem shuffle_roundtrip (b : List Nat) (s : Nat) :
    apply_shuffle (apply_shuffle b s true) s false = b :=
  unshuffle_shuffle b s

/-- Claim C3: XOR self-inverse.  For every byte buffer `b` and key byte
`k` in `0..255`, applying `xor_transform` twice with the same `k` returns
the original buffer. -/
theorem xor_roundtrip (b : List Nat) (k : Nat) (_hk : k < 256) :
    xor_transform (xor_transform b k) k = b :=
  xor_transform_involutive b k

/-- Witness for claim C3 at buffer `[10, 20, 30]`, key `200`. -/
theorem xor_roundtrip_witness :
    200 < 256 ∧ xor_transform (xor_transform [10, 20, 30] 200) 200 = [10, 20, 30] :=
  ⟨by norm_num, xor_roundtrip [10, 20, 30] 200 (by norm_num)⟩

/-- Claim C4: bijection invariant of the permutation generator.  For
every `n` and seed `s`, `permutation_for_length n s` has length `n` and
contains each value of `0..n-1` exactly once; `n = 0` yields the empty
permutation and `n = 1` yields `[0]`. -/
theorem permutation_bijection (n s : Nat) :
    ((permutation_for_length n s).length = n ∧
      ∀ v, v < n → (permutation_for_length n s).count v = 1) ∧
    permutation_for_length 0 s = [] ∧ permutation_for_length 1 s = [0] :=
  ⟨⟨permutation_for_length_length n s, fun v hv => permutation_for_length_count n s v hv⟩,
    permutation_for_length_zero s, permutation_for_length_one s⟩

/-- Witness for claim C4 at `n = 5`, `s = 42`, value `3`. -/
theorem permutation_bijection_witness :
    (permutation_for_length 5 42).length = 5 ∧
      (permutation_for_length 5 42).count 3 = 1 ∧
      permutation_for_length 0 42 = [] ∧ permutation_for_length 1 42 = [0] :=
  ⟨(permutation_bijection 5 42).1.1, (permutation_bijection 5 42).1.2 3 (by norm_num),
    (permutation_bijection 5 42).2.1, (permutation_bijection 5 42).2.2⟩

/-- Claim C5: key derivation contract.  For every password `p`, the
SHA-256 digest of the UTF-8 encoding of `p` has 32 bytes; the XOR key
byte is the digest's first byte (a value in `0..255`), and the
permutation seed is the digest's first 8 bytes read as a 64-bit unsigned
big-endian integer. -/
theorem key_derivation_contract (p : String) :
    (sha256 (utf8Bytes p)).length = 32 ∧
    derive_key_byte p = (sha256 (utf8Bytes p)).getD 0 0 ∧
    derive_key_byte p < 256 ∧
    derive_seed p = fromBytesBE ((sha256 (utf8Bytes p)).take 8) ∧
    derive_seed p < 2 ^ 64 := by
  refine ⟨digestBytes_length _, rfl, ?_, rfl, ?_⟩
  · show (digestBytes (shaStateOf (utf8Bytes p))).getD 0 0 < 256
    rw [digestBytes_getD_zero]
    exact Nat.mod_lt _ (by norm_num)
  · show fromBytesBE ((digestBytes (shaStateOf (utf8Bytes p))).take 8) < 2 ^ 64
    have hlen : ((digestBytes (shaStateOf (utf8Bytes p))).take 8).length = 8 := by
      rw [List.length_take, digestBytes_length]
      norm_num
    have hmem : ∀ x ∈ (digestBytes (shaStateOf (utf8Bytes p))).take 8, x < 256 :=
      fun x hx => digestBytes_mem_lt _ x (List.mem_of_mem_take hx)
    have := fromBytesBE_lt _ hmem
    rw [hlen] at this
    calc fromBytesBE ((digestBytes (shaStateOf (utf8Bytes p))).take 8)
        < 256 ^ 8 := this
    _ = 2 ^ 64 := by norm_num

/-- Claim C6: XOR transform pointwise definition.  For every buffer `b`
and key byte `k`, `xor_transform b k` has the same length as `b`, its
element at every index `i` equals `b[i] XOR k`, and the empty buffer is
returned unchanged. -/
theorem xor_pointwise (b : List Nat) (k : Nat) (hk : k < 256) :
    (xor_transform b k).length = b.length ∧
    (∀ i, i < b.length → (xor_transform b k).getD i 0 = b.getD i 0 ^^^ k) ∧
    xor_transform [] k = [] := by
  refine ⟨xor_transform_length b k, ?_, rfl⟩
  intro i hi
  rw [xor_transform_getD b k i hi, Nat.mod_eq_of_lt hk]

/-- Witness for claim C6 at buffer `[7, 255]`, key `3`, index `1`. -/
theorem xor_pointwise_witness :
    (xor_transform [7, 255] 3).length = 2 ∧
      (xor_transform [7, 255] 3).getD 1 0 = 255 ^^^ 3 ∧
      xor_transform ([] : List Nat) 3 = [] :=
  ⟨(xor_pointwise [7, 255] 3 (by norm_num)).1,
    (xor_pointwise [7, 255] 3 (by norm_num)).2.1 1 (by norm_num),
    (xor_pointwise [7, 255] 3 (by norm_num)).2.2⟩

/-- Claim C7: shuffle and unshuffle pointwise definition.  With
`perm = permutation_for_length b.length s`, the shuffle output at index
`i` is `b[perm[i]]`; the inverse array satisfies `inv[perm[i]] = i`, and
the unshuffle output at index `i` is `b[inv[i]]`; both outputs keep the
input's length. -/
theorem shuffle_pointwise (b : List Nat) (s : Nat) :
    (apply_shuffle b s true).length = b.length ∧
    (∀ i, i < b.length → (apply_shuffle b s true).getD i 0 =
      b.getD ((permutation_for_length b.length s).getD i 0) 0) ∧
    (apply_shuffle b s false).length = b.length ∧
    (∀ i, i < b.length →
      (invertPerm (permutation_for_length b.length s)).getD
        ((permutation_for_length b.length s).getD i 0) 0 = i) ∧
    (∀ i, i < b.length → (apply_shuffle b s false).getD i 0 =
      b.getD ((invertPerm (permutation_for_length b.length s)).getD i 0) 0) := by
  refine ⟨apply_shuffle_true_length b s, ?_, apply_shuffle_false_length b s, ?_, ?_⟩
  · intro i hi
    show (gather b (permutation_for_length b.length s)).getD i 0 = _
    exact gather_getD _ _ i (by rw [permutation_for_length_length]; exact hi)
  · intro i hi
    exact invertPerm_perm_getD b.length s i hi
  · intro i hi
    show (gather b (invertPerm (permutation_for_length b.length s))).getD i 0 = _
    exact gather_getD _ _ i
      (by rw [invertPerm_length, permutation_for_length_length]; exact hi)

/-- Witness for claim C7 at buffer `[9, 8, 7]`, seed `5`, index `2`. -/
theorem shuffle_pointwise_witness :
    (apply_shuffle [9, 8, 7] 5 true).length = 3 ∧
      (apply_shuffle [9, 8, 7] 5 true).getD 2 0 =
        [9, 8, 7].getD ((permutation_for_length 3 5).getD 2 0) 0 ∧
      (invertPerm (permutation_for_length 3 5)).getD
        ((permutation_for_length 3 5).getD 2 0) 0 = 2 ∧
      (apply_shuffle [9, 8, 7] 5 false).getD 2 0 =
        [9, 8, 7].getD ((invertPerm (permutation_for_length 3 5)).getD 2 0) 0 :=
  ⟨(shuffle_pointwise [9, 8, 7] 5).1,
    (shuffle_pointwise [9, 8, 7] 5).2.1 2 (by norm_num),
    (shuffle_pointwise [9, 8, 7] 5).2.2.2.1 2 (by norm_num),
    (shuffle_pointwise [9, 8, 7] 5).2.2.2.2 2 (by norm_num)⟩

/-- Claim C8: fail-fast on invalid arguments.  Whenever `process` is
called with a mode outside `{xor, shuffle, both}` or an action outside
`{encrypt, decrypt}`, it returns the invalid-argument error and no
transformed buffer is produced. -/
theorem process_fail_fast (buf : List Nat) (p mode action : String)
    (h : ¬(mode = "xor" ∨ mode = "shuffle" ∨ mode = "both") ∨
      ¬(action = "encrypt" ∨ action = "decrypt")) :
    ∃ msg, process buf p mode action = Except.error msg := by
  by_cases hm : mode = "xor" ∨ mode = "shuffle" ∨ mode = "both"
  · rcases h with h1 | h2
    · exact absurd hm h1
    · exact ⟨"action must be 'encrypt' or 'decrypt'", by simp [process, hm, h2]⟩
  · exact ⟨"mode must be one of: xor, shuffle, both", by simp [process, hm]⟩

/-- Witness for claim C8 at mode `"rot13"`. -/
theorem process_fail_fast_witness :
    ∃ msg, process [1, 2, 3] "pw" "rot13" "encrypt" = Except.error msg :=
  process_fail_fast [1, 2, 3] "pw" "rot13" "encrypt" (Or.inl (by simp))

/-- Claim C9: determinism of permutation generation.  The output of
`permutation_for_length` depends on nothing but its arguments: two
evaluations with identical `(n, seed)` yield identical arrays. -/
theorem permutation_deterministic (n s m t : Nat) (hn : n = m) (hs : s = t) :
    permutation_for_length n s = permutation_for_length m t := by
  rw [hn, hs]

/-- Witness for claim C9 at `n = 4`, `s = 9`. -/
theorem permutation_deterministic_witness :
    permutation_for_length 4 9 = permutation_for_length 4 9 :=
  permutation_deterministic 4 9 4 9 rfl rfl

/-- Claim C10: implicit key-material coupling.  For every password `p`,
the derived XOR key byte equals the most significant byte of the derived
64-bit permutation seed, since both come from the leading bytes of the
same SHA-256 digest. -/
theorem key_byte_eq_seed_msb (p : String) :
    derive_key_byte p = derive_seed p / 2 ^ 56 :=
  (fromBytesBE_take8_digest_div (shaStateOf (utf8Bytes p))).symm

end ImageEncryptor
